import Mathlib

/-!
Shallow embedding of the background task-orchestration module
`weblate/trans/tasks.py` of Weblate, together with theorems checking the
natural-language specification of that module against the code.

Conventions of the embedding:
* Django model instances become Lean structures; a queryset becomes a
  `List` of such structures.
* Timestamps (`timezone.now()`, `os.path.getmtime`, `stats.last_changed`)
  are integers counting seconds; `timedelta(hours=h)` is `3600 * h`
  seconds and `timedelta(days=d)` is `86400 * d` seconds.
* A Python exception propagating out of a task body is an `Except.error`
  value; a task body that returns normally is `Except.ok`.
* A Celery `task.delay(...)` call (enqueue, not inline execution) is the
  emission of a task descriptor into the returned list of enqueued tasks.
-/

namespace Weblate

/-- Exceptions of the Python code that the task module raises, catches or
declares for retry.  Django gives every model class its own distinct
`DoesNotExist` exception, so that class is tagged with the model name:
`Component.DoesNotExist` and `Project.DoesNotExist` are different
exceptions and an `except` clause for one does not catch the other. -/
inductive PyExc where
  | fileParseError
  | doesNotExist (model : String)
  | timeoutExc
deriving Repr, DecidableEq

/-- A translation component (one version-controlled repository), with the
attributes the task module reads.  `hasRepo` models membership in
`Component.objects.with_repo()` (the component has its own repository
rather than linking another component's); `lastChanged` models
`component.stats.last_changed` (`none` when no change was ever recorded);
`parseFails` models whether parsing the component's translation files
raises `FileParseError` (inside `do_update` / `create_translations`). -/
structure Component where
  pk : Nat
  projectSlug : String
  slug : String
  commit_pending_age : Nat
  lastChanged : Option Int
  needs_commit : Bool
  hasRepo : Bool
  translations : List Nat
  parseFails : Bool
  count_missing : Nat
  count_outgoing : Nat
  alerts : List String
deriving Repr, DecidableEq

/-- A project, with the attributes `perform_update` and `cleanup_project`
need. -/
structure Project where
  pk : Nat
  parseFails : Bool
deriving Repr, DecidableEq

/-- Lookup of `Component.objects.get(pk=pk)` over the component table. -/
def findComponent (db : List Component) (pk : Nat) : Option Component :=
  db.find? (fun c => c.pk == pk)

/-- Lookup of `Project.objects.get(pk=pk)` over the project table. -/
def findProject (db : List Project) (pk : Nat) : Option Project :=
  db.find? (fun p => p.pk == pk)

/-! ## Commit-age scheduler: `commit_pending` -/

/-- One enqueued `perform_commit.delay(pk, reason, user)` call. -/
structure CommitTask where
  pk : Nat
  reason : String
  user : Option Nat
deriving Repr, DecidableEq

/-- The queryset of `commit_pending`: all components when `pks is None`,
otherwise `Component.objects.filter(translation__pk__in=pks).distinct()` —
the components having at least one translation among `pks`, each listed
once (the table `db` lists each component once; `.distinct()` collapses
the row duplication of the SQL join, which the list-level `filter`
never introduces). -/
def commitPendingComponents (db : List Component) (pks : Option (List Nat)) :
    List Component :=
  match pks with
  | none => db
  | some ps => db.filter (fun c => c.translations.any (fun t => ps.contains t))

/-- The body of the `commit_pending` loop for one component: `age` is the
cutoff instant `now - timedelta(hours=...)` with the caller-supplied
`hours` when given, else the component's `commit_pending_age`; the
component is skipped when it has no recorded last change, when
`last_change > age`, or when `needs_commit()` is false; otherwise
`perform_commit.delay(component.pk, "commit_pending", None)` is
enqueued. -/
def commitPendingStep (now : Int) (hours : Option Nat) (c : Component) :
    Option CommitTask :=
  let age : Int :=
    match hours with
    | none => now - 3600 * (c.commit_pending_age : Int)
    | some h => now - 3600 * (h : Int)
  match c.lastChanged with
  | none => none
  | some lastChange =>
    if lastChange > age then none
    else if !c.needs_commit then none
    else some ⟨c.pk, "commit_pending", none⟩

/-- The `commit_pending` task: scans the selected components and returns
the list of enqueued commit tasks (its only side effect). -/
def commit_pending (now : Int) (hours : Option Nat) (pks : Option (List Nat))
    (db : List Component) : List CommitTask :=
  (commitPendingComponents db pks).filterMap (commitPendingStep now hours)

/-! ## Alert engine: `repository_alerts` -/

/-- Modelled from the spec: the alert sink's `add_alert` is add-if-absent —
"exactly one active/inactive state per (name, repository) pair at any
time — re-evaluation is idempotent (add-if-absent, remove-if-present)". -/
def addAlert (c : Component) (name : String) : Component :=
  if c.alerts.contains name then c else { c with alerts := name :: c.alerts }

/-- Modelled from the spec: the alert sink's `delete_alert` is
remove-if-present. -/
def deleteAlert (c : Component) (name : String) : Component :=
  { c with alerts := c.alerts.filter (fun a => a != name) }

/-- The body of the `repository_alerts` loop for one component: activate
`RepositoryOutdated` iff `count_missing() > threshold`, activate
`RepositoryChanges` iff `count_outgoing() > threshold`. -/
def repositoryAlertsStep (threshold : Nat) (c : Component) : Component :=
  let c1 :=
    if c.count_missing > threshold then addAlert c "RepositoryOutdated"
    else deleteAlert c "RepositoryOutdated"
  if c1.count_outgoing > threshold then addAlert c1 "RepositoryChanges"
  else deleteAlert c1 "RepositoryChanges"

/-- The `repository_alerts` task: updates the alerts of every component
with its own repository (`Component.objects.with_repo()`); other
components are untouched. -/
def repository_alerts (threshold : Nat) (db : List Component) :
    List Component :=
  db.map (fun c => if c.hasRepo then repositoryAlertsStep threshold c else c)

/-! ## Sync pipeline tasks: `perform_update`, `perform_load`,
`perform_commit` -/

/-- The possible values of `settings.AUTO_UPDATE` that the module
distinguishes: the strings `"full"` and `"remote"`, the legacy booleans
`True` and `False`, and any other value (Weblate documents `"none"`),
which behaves uniformly in this module. -/
inductive AutoUpdateSetting where
  | strFull
  | strRemote
  | strNone
  | boolTrue
  | boolFalse
deriving Repr, DecidableEq

/-- The test `settings.AUTO_UPDATE in ("full", True)` of `perform_update`. -/
def autoUpdateWantsFull : AutoUpdateSetting → Bool
  | .strFull => true
  | .boolTrue => true
  | _ => false

/-- The test `settings.AUTO_UPDATE not in ("full", "remote", True, False)`
of `update_remotes` (the negation: the setting is one of those four). -/
def autoUpdateSweepEnabled : AutoUpdateSetting → Bool
  | .strFull => true
  | .strRemote => true
  | .boolTrue => true
  | .boolFalse => true
  | .strNone => false

/-- What an update task did to its target repository. -/
inductive UpdateAction where
  | fullUpdate
  | remoteFetch
deriving Repr, DecidableEq

/-- The successful outcome of `perform_update`: which branch ran, and
whether a `FileParseError` was raised by it and swallowed by the
`except FileParseError: return` handler. -/
structure UpdateResult where
  action : UpdateAction
  parseSwallowed : Bool
deriving Repr, DecidableEq

/-- The `perform_update` task body.  `cls` selects the model to look up
(`"Project"` or component); a missing target raises that model's
`DoesNotExist`, which the `except FileParseError` clause does not catch.
`do_update` runs when `settings.AUTO_UPDATE in ("full", True) or not
auto`, else `update_remote_branch` (fetch only, no parsing).  A
`FileParseError` out of `do_update` is caught and the task returns
normally. -/
def perform_update (projects : List Project) (db : List Component)
    (setting : AutoUpdateSetting) (cls : String) (pk : Nat) (auto : Bool) :
    Except PyExc UpdateResult :=
  let target : Except PyExc Bool :=
    if cls == "Project" then
      match findProject projects pk with
      | none => .error (.doesNotExist "Project")
      | some p => .ok p.parseFails
    else
      match findComponent db pk with
      | none => .error (.doesNotExist "Component")
      | some c => .ok c.parseFails
  match target with
  | .error e => .error e
  | .ok parseFails =>
    if autoUpdateWantsFull setting || !auto then
      .ok ⟨.fullUpdate, parseFails⟩
    else
      .ok ⟨.remoteFetch, false⟩

/-- The `perform_load` task body: `Component.objects.get(pk=pk)` followed
by `component.create_translations(*args)`, with no exception handler —
a missing component raises `Component.DoesNotExist` and a parse failure
inside `create_translations` propagates as `FileParseError`. -/
def perform_load (db : List Component) (pk : Nat) : Except PyExc Unit :=
  match findComponent db pk with
  | none => .error (.doesNotExist "Component")
  | some c =>
    if c.parseFails then .error .fileParseError else .ok ()

/-- The `perform_commit` task body: `Component.objects.get(pk=pk)`
followed by `component.commit_pending(*args)`, with no exception
handler — a missing component raises `Component.DoesNotExist`. -/
def perform_commit (db : List Component) (pk : Nat) : Except PyExc Unit :=
  match findComponent db pk with
  | none => .error (.doesNotExist "Component")
  | some _ => .ok ()

/-! ## Removal and cleanup tasks -/

/-- The `cleanup_project` task body: `Project.objects.get(pk=pk)` inside
`try ... except Project.DoesNotExist: return`, then `cleanup_sources`
(which touches units, not the project table). -/
def cleanup_project (projects : List Project) (pk : Nat) :
    Except PyExc Unit :=
  match findProject projects pk with
  | none =>
    -- Project.DoesNotExist raised by the lookup; the handler catches
    -- exactly Project.DoesNotExist, so the task returns normally.
    if PyExc.doesNotExist "Project" == PyExc.doesNotExist "Project" then
      .ok ()
    else
      .error (.doesNotExist "Project")
  | some _ => .ok ()

/-- The `component_removal` task body: inside `try`, the component is
looked up, a removal `Change` is recorded and the component deleted; the
`except` clause catches `Project.DoesNotExist` — but the lookup of a
deleted component raises `Component.DoesNotExist`, a different exception
class, so that exception escapes the handler.  Returns the remaining
component table on success. -/
def component_removal (db : List Component) (pk : Nat) :
    Except PyExc (List Component) :=
  match findComponent db pk with
  | none =>
    -- Component.DoesNotExist raised; the handler is for
    -- Project.DoesNotExist only, so the exception propagates.
    if PyExc.doesNotExist "Component" == PyExc.doesNotExist "Project" then
      .ok db
    else
      .error (.doesNotExist "Component")
  | some _ => .ok (db.filter (fun c => c.pk != pk))

/-! ## Scheduled update sweep: `update_remotes` -/

/-- One enqueued `perform_update.delay("Component", pk, auto=True)` call. -/
structure UpdateTask where
  cls : String
  pk : Nat
  auto : Bool
deriving Repr, DecidableEq

/-- The `update_remotes` task: when `settings.AUTO_UPDATE` is not one of
`("full", "remote", True, False)` it returns without enqueuing anything;
otherwise it enqueues `perform_update.delay("Component", pk, auto=True)`
for every component with its own repository. -/
def update_remotes (setting : AutoUpdateSetting) (db : List Component) :
    List UpdateTask :=
  if autoUpdateSweepEnabled setting then
    (db.filter (fun c => c.hasRepo)).map (fun c => ⟨"Component", c.pk, true⟩)
  else
    []

/-! ## Retry policy of the sync-pipeline tasks -/

/-- The retry declaration of a Celery task, as written in the
`@app.task(...)` decorators of this module: the exception classes that
trigger an automatic retry, the initial backoff and the backoff
ceiling. -/
structure RetryPolicy where
  autoretryClasses : List PyExc
  retryBackoff : Nat
  retryBackoffMax : Nat
deriving Repr, DecidableEq

/-- The retry declaration shared by `perform_update`, `perform_load`,
`perform_commit` and `perform_push`:
`autoretry_for=(Timeout,), retry_backoff=600, retry_backoff_max=3600`. -/
def syncTaskRetryPolicy : RetryPolicy :=
  { autoretryClasses := [PyExc.timeoutExc]
    retryBackoff := 600
    retryBackoffMax := 3600 }

/-- Modelled from the spec: the Task Executor's backoff interval — the
delay before the (n+1)-st run, after n+1 failures, is the initial backoff
doubled n times, capped at the ceiling ("initial delay 600s, doubling,
capped at 3600s"; jitter is left to the implementer and modelled as
absent).  This is the interval the `retry_backoff` / `retry_backoff_max`
decorator arguments configure. -/
def backoffInterval (policy : RetryPolicy) (retries : Nat) : Nat :=
  min policy.retryBackoffMax (policy.retryBackoff * 2 ^ retries)

/-- Modelled from the spec: the Task Executor retries a failed task iff
the raised exception is one of the declared transient classes; the
decision does not depend on the attempt number ("unbounded retry count
by design"). -/
def executorRetries (policy : RetryPolicy) (exc : PyExc) (_attempt : Nat) :
    Bool :=
  policy.autoretryClasses.contains exc

/-! ## Index maintainer: `cleanup_fulltext` -/

/-- The state `cleanup_fulltext` works on: the authoritative unit table
(`Unit.objects`, as the list of existing unit pks), the language table
(`Language.objects.values_list("code")`), and the fulltext index
partitions — the source partition and one target partition per language
code.  A partition that was never built has no index on disk, and opening
a reader on it raises `EmptyIndexError`; this is `none` for the source
partition and an absent key in `targets` for a target partition.  A
built-but-empty partition is `some []`. -/
structure FulltextState where
  units : List Nat
  langs : List String
  source : Option (List Nat)
  targets : List (String × List Nat)
deriving Repr, DecidableEq

/-- The stored entries of a partition whose referenced unit no longer
exists (`not Unit.objects.filter(pk=item["pk"]).exists()`). -/
def staleEntries (units idx : List Nat) : List Nat :=
  idx.filter (fun pk => !(units.contains pk))

/-- The stored entries of a partition whose referenced unit still
exists — what remains after the stale ones are deleted. -/
def liveEntries (units idx : List Nat) : List Nat :=
  idx.filter (fun pk => units.contains pk)

/-- Replace the index of target partition `l` by `v` (partitions with a
different language code are untouched). -/
def setTarget (ts : List (String × List Nat)) (l : String) (v : List Nat) :
    List (String × List Nat) :=
  ts.map (fun p => if p.1 == l then (p.1, v) else p)

/-- The partition the loop of `cleanup_fulltext` opens for one element of
its `languages` list: `None` selects the source index, a code selects
that language's target index; `none` here is the `EmptyIndexError`
case. -/
def partitionOf (s : FulltextState) : Option String → Option (List Nat)
  | none => s.source
  | some l => s.targets.lookup l

/-- One iteration of the `cleanup_fulltext` loop: open the partition's
reader (`EmptyIndexError` → `continue`), then delete every stored entry
whose unit no longer exists via `fulltext.clean_search_unit(pk, lang)`
(modelled from the spec's alert-free index interface: `remove_entry`
deletes that entry from the partition it was enumerated from).  The
accumulator carries the state and the number of deletions so far. -/
def cleanupPartitionStep (acc : FulltextState × Nat) (lang : Option String) :
    FulltextState × Nat :=
  let st := acc.1
  let n := acc.2
  match lang with
  | none =>
    match st.source with
    | none => (st, n)
    | some idx =>
      ({ st with source := some (liveEntries st.units idx) },
       n + (staleEntries st.units idx).length)
  | some l =>
    match st.targets.lookup l with
    | none => (st, n)
    | some idx =>
      ({ st with targets := setTarget st.targets l (liveEntries st.units idx) },
       n + (staleEntries st.units idx).length)

/-- The `cleanup_fulltext` task: iterate over
`languages = list(codes) + [None]` and clean each partition; returns the
final state and the total number of deleted entries. -/
def cleanup_fulltext (s : FulltextState) : FulltextState × Nat :=
  ((s.langs.map some) ++ [none]).foldl cleanupPartitionStep (s, 0)

/-- The number of stale entries a partition holds (0 when never built). -/
def staleCountOf (s : FulltextState) (a : Option String) : Nat :=
  match partitionOf s a with
  | none => 0
  | some idx => (staleEntries s.units idx).length

/-! ## Stale resource reaper: `cleanup_stale_repos` -/

/-- One directory found by the glob over `<root>/<project-slug>/<component-slug>`,
with the slugs derived from its path, its last-modified time, whether it
is a directory at all, and whether it carries read-only permissions. -/
structure VcsDir where
  projectSlug : String
  slug : String
  mtime : Int
  isDir : Bool
  readOnly : Bool
deriving Repr, DecidableEq

/-- Whether `cleanup_stale_repos` removes directory `d`: non-directories
are skipped, paths with `getmtime(path) > time() - 86400` are skipped as
recently modified, and the rest are removed exactly when no component
with its own repository matches the derived (project-slug, slug) pair.
The removal itself (`rmtree(path, onerror=remove_readonly)`) clears
read-only permissions rather than failing, so it succeeds whatever
`d.readOnly` is. -/
def staleRepoCandidate (now : Int) (db : List Component) (d : VcsDir) : Bool :=
  if !d.isDir then false
  else if d.mtime > now - 86400 then false
  else !(db.any (fun c =>
    c.hasRepo && c.slug == d.slug && c.projectSlug == d.projectSlug))

/-- The `cleanup_stale_repos` task: the directories surviving the sweep. -/
def cleanup_stale_repos (now : Int) (db : List Component)
    (dirs : List VcsDir) : List VcsDir :=
  dirs.filter (fun d => !(staleRepoCandidate now db d))

/-! ## Aging cleanup: `cleanup_old_suggestions`, `cleanup_old_comments` -/

/-- A suggestion, with the attribute the cleanup reads. -/
structure Suggestion where
  pk : Nat
  timestamp : Int
deriving Repr, DecidableEq

/-- A comment, with the attribute the cleanup reads. -/
structure Comment where
  pk : Nat
  timestamp : Int
deriving Repr, DecidableEq

/-- The `cleanup_old_suggestions` task: when
`settings.SUGGESTION_CLEANUP_DAYS` is unset (`None`) or `0` — both falsy —
it returns with no deletion; otherwise it deletes the suggestions with
`timestamp < now - timedelta(days=days)` (strict comparison,
`timestamp__lt`).  Returns the surviving suggestions. -/
def cleanup_old_suggestions (days : Option Nat) (now : Int)
    (sugs : List Suggestion) : List Suggestion :=
  match days with
  | none => sugs
  | some d =>
    if d = 0 then sugs
    else sugs.filter (fun s => !(decide (s.timestamp < now - 86400 * (d : Int))))

/-- The `cleanup_old_comments` task: identical shape with
`settings.COMMENT_CLEANUP_DAYS`. -/
def cleanup_old_comments (days : Option Nat) (now : Int)
    (cs : List Comment) : List Comment :=
  match days with
  | none => cs
  | some d =>
    if d = 0 then cs
    else cs.filter (fun c => !(decide (c.timestamp < now - 86400 * (d : Int))))

/-! ## Sample data for witnesses -/

/-- A component that is eligible for the commit-age scheduler. -/
def sampleEligible : Component :=
  { pk := 1
    projectSlug := "acme"
    slug := "core"
    commit_pending_age := 2
    lastChanged := some 100
    needs_commit := true
    hasRepo := true
    translations := [5, 6]
    parseFails := false
    count_missing := 0
    count_outgoing := 0
    alerts := [] }

/-- A component whose repository is 11 commits behind its remote. -/
def sampleBehind : Component :=
  { pk := 7
    projectSlug := "acme"
    slug := "web"
    commit_pending_age := 24
    lastChanged := none
    needs_commit := false
    hasRepo := true
    translations := []
    parseFails := false
    count_missing := 11
    count_outgoing := 0
    alerts := [] }

/-- The same component after the remote gap shrank to 9 commits, carrying
the alert the previous run raised. -/
def sampleCaughtUp : Component :=
  { sampleBehind with count_missing := 9, alerts := ["RepositoryOutdated"] }

/-- A component whose translation files fail to parse. -/
def sampleParse : Component :=
  { sampleEligible with pk := 3, parseFails := true }

/-- A fulltext state with one stale entry in the source partition, one
stale entry in the Czech target partition, an orphan partition not
listed in the language table, and unit 3 deleted from the store. -/
def sampleIndex : FulltextState :=
  { units := [1, 2]
    langs := ["cs"]
    source := some [1, 3]
    targets := [("cs", [2, 4]), ("de", [9])] }

/-! ## Helper lemmas -/

theorem mem_addAlert (c : Component) (n m : String) :
    m ∈ (addAlert c n).alerts ↔ m = n ∨ m ∈ c.alerts := by
  unfold addAlert
  split
  · rename_i h
    have hn : n ∈ c.alerts := by simpa using h
    constructor
    · exact Or.inr
    · rintro (rfl | hm)
      · exact hn
      · exact hm
  · simp [List.mem_cons]

theorem mem_deleteAlert (c : Component) (n m : String) :
    m ∈ (deleteAlert c n).alerts ↔ m ∈ c.alerts ∧ m ≠ n := by
  simp [deleteAlert, List.mem_filter, bne_iff_ne]

theorem alerts_unchanged_fields (c : Component) (n : String) :
    (addAlert c n).count_missing = c.count_missing ∧
    (addAlert c n).count_outgoing = c.count_outgoing ∧
    (deleteAlert c n).count_missing = c.count_missing ∧
    (deleteAlert c n).count_outgoing = c.count_outgoing := by
  unfold addAlert deleteAlert
  split <;> simp

/-! ## Claim theorems -/

/-- C1: in one `commit_pending` run, a component gets a commit task
enqueued iff it has a recorded last-changed timestamp, the elapsed time
since it is at least the threshold in hours (the caller-supplied `hours`
when given, else the component's `commit_pending_age`), and
`needs_commit()` holds; every enqueued task comes from a scanned
component that passed this test, so components with `needs_commit()`
false and components with no recorded change cause no enqueue. -/
theorem commit_pending_enqueue_iff (now : Int) (hours : Option Nat)
    (pks : Option (List Nat)) (db : List Component) (c : Component) :
    ((∃ t, commitPendingStep now hours c = some t) ↔
      ∃ lc, c.lastChanged = some lc ∧
        now - lc ≥ 3600 * ((hours.getD c.commit_pending_age : Nat) : Int) ∧
        c.needs_commit = true)
    ∧ (c ∈ commitPendingComponents db pks →
        ∀ t, commitPendingStep now hours c = some t →
          t ∈ commit_pending now hours pks db)
    ∧ (∀ t, t ∈ commit_pending now hours pks db →
        ∃ c', c' ∈ commitPendingComponents db pks ∧
          commitPendingStep now hours c' = some t) := by
  refine ⟨?_, ?_, ?_⟩
  · unfold commitPendingStep
    cases hlc : c.lastChanged with
    | none => simp
    | some lc =>
      cases hours with
      | none =>
        simp only [Option.getD]
        constructor
        · intro ⟨t, ht⟩
          refine ⟨lc, rfl, ?_⟩
          by_cases hgt : lc > now - 3600 * (c.commit_pending_age : Int)
          · simp [hgt] at ht
          · by_cases hnc : c.needs_commit
            · exact ⟨by omega, hnc⟩
            · simp [hgt, hnc] at ht
        · rintro ⟨lc', hlc', hge, hnc⟩
          injection hlc' with heq
          subst heq
          have hgt : ¬(lc > now - 3600 * (c.commit_pending_age : Int)) := by
            omega
          exact ⟨⟨c.pk, "commit_pending", none⟩, by simp [hgt, hnc]⟩
      | some h =>
        simp only [Option.getD]
        constructor
        · intro ⟨t, ht⟩
          refine ⟨lc, rfl, ?_⟩
          by_cases hgt : lc > now - 3600 * (h : Int)
          · simp [hgt] at ht
          · by_cases hnc : c.needs_commit
            · exact ⟨by omega, hnc⟩
            · simp [hgt, hnc] at ht
        · rintro ⟨lc', hlc', hge, hnc⟩
          injection hlc' with heq
          subst heq
          have hgt : ¬(lc > now - 3600 * (h : Int)) := by omega
          exact ⟨⟨c.pk, "commit_pending", none⟩, by simp [hgt, hnc]⟩
  · intro hmem t ht
    unfold commit_pending
    exact List.mem_filterMap.mpr ⟨c, hmem, ht⟩
  · intro t ht
    exact List.mem_filterMap.mp ht

/-- Witness instantiating C1 at a concrete state: the sample component is
eligible at `now = 10000` with its own two-hour threshold, and the task
it generates is in the run's enqueue list. -/
theorem commit_pending_enqueue_iff_witness :
    ∃ t, t ∈ commit_pending 10000 none none [sampleEligible] := by
  have h := commit_pending_enqueue_iff 10000 none none [sampleEligible]
    sampleEligible
  obtain ⟨t, ht⟩ := h.1.mpr ⟨100, rfl, by decide, rfl⟩
  exact ⟨t, h.2.1 (by simp [commitPendingComponents]) t ht⟩

/-- C2: after one `repository_alerts` run with threshold `t`, a component
with its own repository has `RepositoryOutdated` active iff
`count_missing() > t` and `RepositoryChanges` active iff
`count_outgoing() > t`; its updated record is part of the run's output. -/
theorem repository_alerts_active_iff (t : Nat) (db : List Component)
    (c : Component) (hc : c ∈ db) (hrepo : c.hasRepo = true) :
    repositoryAlertsStep t c ∈ repository_alerts t db
    ∧ (("RepositoryOutdated" ∈ (repositoryAlertsStep t c).alerts) ↔
        c.count_missing > t)
    ∧ (("RepositoryChanges" ∈ (repositoryAlertsStep t c).alerts) ↔
        c.count_outgoing > t) := by
  have hout : (if t < c.count_missing then addAlert c "RepositoryOutdated"
      else deleteAlert c "RepositoryOutdated").count_outgoing =
        c.count_outgoing := by
    split
    · exact (alerts_unchanged_fields c "RepositoryOutdated").2.1
    · exact (alerts_unchanged_fields c "RepositoryOutdated").2.2.2
  refine ⟨?_, ?_, ?_⟩
  · unfold repository_alerts
    have : (fun x => if x.hasRepo then repositoryAlertsStep t x else x) c =
        repositoryAlertsStep t c := by simp [hrepo]
    exact this ▸ List.mem_map_of_mem _ hc
  · simp only [repositoryAlertsStep, gt_iff_lt]
    rw [hout]
    by_cases hm : t < c.count_missing <;> by_cases ho : t < c.count_outgoing <;>
      simp [hm, ho, mem_addAlert, mem_deleteAlert]
  · simp only [repositoryAlertsStep, gt_iff_lt]
    rw [hout]
    by_cases hm : t < c.count_missing <;> by_cases ho : t < c.count_outgoing <;>
      simp [hm, ho, mem_addAlert, mem_deleteAlert]

/-- Witness instantiating C2 on the hysteresis round trip of the spec:
with threshold 10, `missing = 11` activates `RepositoryOutdated`, and a
later run on the same component with `missing = 9` deactivates it. -/
theorem repository_alerts_active_iff_witness :
    "RepositoryOutdated" ∈ (repositoryAlertsStep 10 sampleBehind).alerts
    ∧ "RepositoryOutdated" ∉ (repositoryAlertsStep 10 sampleCaughtUp).alerts := by
  constructor
  · exact (repository_alerts_active_iff 10 [sampleBehind] sampleBehind
      (by simp) rfl).2.1.mpr (by decide)
  · intro h
    have := (repository_alerts_active_iff 10 [sampleCaughtUp] sampleCaughtUp
      (by simp) rfl).2.1.mp h
    exact absurd this (by decide)

/-- C3 counterexample: a `FileParseError` out of `create_translations` is
not caught by `perform_load` — the task re-raises it instead of
terminating successfully, refuting the claim for load tasks. -/
theorem perform_load_reraises_parse_error :
    perform_load [sampleParse] 3 = .error .fileParseError
    ∧ perform_load [sampleParse] 3 ≠ .ok () := by
  constructor
  · rfl
  · intro h
    simp [perform_load, findComponent, sampleParse, sampleEligible] at h

/-- C3 (amended): `perform_update` catches `FileParseError` and
terminates successfully (it never re-raises it, whatever the state), and
the error is not in the retry classes, so the task is not retried on it;
`perform_load`, however, has no such handler: when its component's
parsing fails, the task propagates `FileParseError` (and is likewise not
retried on it). -/
theorem parse_error_handling (projects : List Project) (db : List Component)
    (setting : AutoUpdateSetting) (cls : String) (pk : Nat) (auto : Bool) :
    perform_update projects db setting cls pk auto ≠ .error .fileParseError
    ∧ (∀ c, findComponent db pk = some c → c.parseFails = true →
        perform_load db pk = .error .fileParseError)
    ∧ (∀ n, executorRetries syncTaskRetryPolicy .fileParseError n = false) := by
  refine ⟨?_, ?_, ?_⟩
  · intro h
    simp only [perform_update] at h
    split at h
    · rename_i e he
      split at he
      · split at he
        · injection he with he2
          rw [← he2] at h
          injection h with h3
          exact absurd h3 (by simp)
        · exact absurd he (by simp)
      · split at he
        · injection he with he2
          rw [← he2] at h
          injection h with h3
          exact absurd h3 (by simp)
        · exact absurd he (by simp)
    · split at h <;> exact absurd h (by simp)
  · intro c hc hpf
    simp [perform_load, hc, hpf]
  · intro n
    rfl

/-- Witness instantiating C3's amended theorem: the sample parse-failing
component makes `perform_load` raise while `perform_update` swallows. -/
theorem parse_error_handling_witness :
    perform_load [sampleParse] 3 = .error .fileParseError
    ∧ perform_update [] [sampleParse] .strFull "Component" 3 true ≠
        .error .fileParseError :=
  ⟨(parse_error_handling [] [sampleParse] .strFull "Component" 3 true).2.1
      sampleParse (by rfl) (by rfl),
   (parse_error_handling [] [sampleParse] .strFull "Component" 3 true).1⟩

/-- C4 counterexample: with the component table empty, the
`component_removal` task raises `Component.DoesNotExist` (its handler
only catches `Project.DoesNotExist`) and `perform_commit` raises it with
no handler at all — neither terminates silently as the claim states. -/
theorem removal_tasks_raise_on_missing_target :
    component_removal ([] : List Component) 1 =
      .error (.doesNotExist "Component")
    ∧ perform_commit ([] : List Component) 1 =
      .error (.doesNotExist "Component") := by
  constructor <;> rfl

/-- C4 (amended): a task that guards its lookup with the right exception
class (`cleanup_project`) terminates silently as a no-op when its target
project was deleted; but `perform_commit` performs an unguarded
component lookup and raises `Component.DoesNotExist`, and
`component_removal` guards with the wrong class (`Project.DoesNotExist`),
so both raise instead of no-op when the component was deleted. -/
theorem missing_target_behavior (projects : List Project)
    (db : List Component) (pk : Nat) :
    (findProject projects pk = none → cleanup_project projects pk = .ok ())
    ∧ (findComponent db pk = none →
        component_removal db pk = .error (.doesNotExist "Component"))
    ∧ (findComponent db pk = none →
        perform_commit db pk = .error (.doesNotExist "Component")) := by
  refine ⟨?_, ?_, ?_⟩
  · intro h
    simp [cleanup_project, h]
  · intro h
    simp [component_removal, h]
  · intro h
    simp [perform_commit, h]

/-- Witness instantiating C4's amended theorem on the empty tables. -/
theorem missing_target_behavior_witness :
    cleanup_project ([] : List Project) 1 = .ok ()
    ∧ component_removal ([] : List Component) 1 =
        .error (.doesNotExist "Component") :=
  ⟨(missing_target_behavior [] [] 1).1 rfl,
   (missing_target_behavior [] [] 1).2.1 rfl⟩

/-- C5: for a successful update task, a scheduler-triggered run
(`auto = true`) performs the full update with merge exactly when
`settings.AUTO_UPDATE` is full (`"full"` or legacy `True`); with the
remote-only values (`"remote"` or legacy `False`) it only fetches the
remote branch; with any other value the scheduled `update_remotes` sweep
enqueues nothing at all; and a manual run (`auto = false`) always
performs the full update.  Every task the sweep enqueues is a
component-update with `auto = true`. -/
theorem perform_update_mode (projects : List Project) (db : List Component)
    (setting : AutoUpdateSetting) (cls : String) (pk : Nat) (auto : Bool)
    (r : UpdateResult)
    (h : perform_update projects db setting cls pk auto = .ok r) :
    (auto = true →
      (r.action = .fullUpdate ↔ (setting = .strFull ∨ setting = .boolTrue)))
    ∧ (auto = true → (setting = .strRemote ∨ setting = .boolFalse) →
        r.action = .remoteFetch)
    ∧ (auto = false → r.action = .fullUpdate)
    ∧ update_remotes .strNone db = []
    ∧ (∀ t, t ∈ update_remotes setting db →
        t.cls = "Component" ∧ t.auto = true) := by
  have hact : r.action =
      (if autoUpdateWantsFull setting || !auto then UpdateAction.fullUpdate
       else UpdateAction.remoteFetch) := by
    simp only [perform_update] at h
    split at h
    · exact absurd h (by simp)
    · split at h <;> (injection h with h2; rw [← h2]; simp_all)
  refine ⟨?_, ?_, ?_, ?_, ?_⟩
  · rintro rfl
    rw [hact]
    cases setting <;> simp [autoUpdateWantsFull]
  · rintro rfl hrem
    rw [hact]
    rcases hrem with rfl | rfl <;> simp [autoUpdateWantsFull]
  · rintro rfl
    rw [hact]
    cases setting <;> simp [autoUpdateWantsFull]
  · simp [update_remotes, autoUpdateSweepEnabled]
  · intro t ht
    unfold update_remotes at ht
    split at ht
    · obtain ⟨c, _, rfl⟩ := List.mem_map.mp ht
      exact ⟨rfl, rfl⟩
    · exact absurd ht (by simp)

/-- Witness instantiating C5: a manual update of the sample component
under the disabled setting still does the full update, and the scheduled
sweep under that setting enqueues nothing. -/
theorem perform_update_mode_witness :
    update_remotes .strNone [sampleEligible] = [] :=
  (perform_update_mode [] [sampleEligible] .strNone "Component" 1 false
    ⟨.fullUpdate, false⟩ (by rfl)).2.2.2.1

/-- C6: the sync-pipeline tasks declare retry only for the transient
`Timeout` class, with backoff parameters 600 and 3600; the delay before
the first retry is 600 s, it doubles on each successive retry up to the
3600 s cap, never decreases, the first three delays are 600 s, 1200 s
and 2400 s, and the executor's retry decision holds at every attempt
number (unbounded retry count). -/
theorem retry_backoff_spec :
    syncTaskRetryPolicy =
      { autoretryClasses := [PyExc.timeoutExc]
        retryBackoff := 600
        retryBackoffMax := 3600 }
    ∧ backoffInterval syncTaskRetryPolicy 0 = 600
    ∧ backoffInterval syncTaskRetryPolicy 1 = 1200
    ∧ backoffInterval syncTaskRetryPolicy 2 = 2400
    ∧ (∀ n, backoffInterval syncTaskRetryPolicy (n + 1) =
        min 3600 (2 * backoffInterval syncTaskRetryPolicy n))
    ∧ (∀ n, backoffInterval syncTaskRetryPolicy n ≤
        backoffInterval syncTaskRetryPolicy (n + 1))
    ∧ (∀ n, backoffInterval syncTaskRetryPolicy n ≤ 3600)
    ∧ (∀ n, executorRetries syncTaskRetryPolicy .timeoutExc n = true) := by
  have hpow : ∀ n : Nat, 600 * 2 ^ (n + 1) = 2 * (600 * 2 ^ n) := by
    intro n
    ring
  refine ⟨rfl, rfl, rfl, rfl, ?_, ?_, ?_, ?_⟩
  · intro n
    simp only [backoffInterval, syncTaskRetryPolicy, hpow n]
    omega
  · intro n
    have hle : 600 * 2 ^ n ≤ 600 * 2 ^ (n + 1) := by
      have := hpow n
      omega
    simp only [backoffInterval, syncTaskRetryPolicy]
    omega
  · intro n
    exact Nat.min_le_left _ _
  · intro n
    rfl

/-- C8 counterexample: a directory whose mtime is exactly 24 hours in the
past (not *more* than 24 hours) is still removed by the sweep when no
component matches, refuting the claim's strict-age condition at the
boundary. -/
theorem stale_repo_boundary :
    staleRepoCandidate 86400 ([] : List Component)
      ⟨"acme", "core", 0, true, false⟩ = true
    ∧ ¬(86400 - (0 : Int) > 86400) := by decide

/-- C8 (amended): the sweep removes a directory iff it is a directory,
its mtime is at least 24 hours in the past (`mtime ≤ now − 86400`), and
no live component with its own repository matches the derived
(project-slug, component-slug) pair; the decision ignores read-only
permissions (removal clears them rather than failing), and the surviving
directories are exactly the non-candidates.  A directory 2 days old with
no matching component is removed; an identical one 1 hour old is not. -/
theorem stale_repo_removal_iff (now : Int) (db : List Component)
    (d : VcsDir) (dirs : List VcsDir) :
    (staleRepoCandidate now db d = true ↔
      d.isDir = true ∧ d.mtime ≤ now - 86400 ∧
        ¬∃ c, c ∈ db ∧ c.hasRepo = true ∧ c.slug = d.slug ∧
          c.projectSlug = d.projectSlug)
    ∧ (∀ b, staleRepoCandidate now db { d with readOnly := b } =
        staleRepoCandidate now db d)
    ∧ (d ∈ cleanup_stale_repos now db dirs ↔
        d ∈ dirs ∧ staleRepoCandidate now db d = false)
    ∧ staleRepoCandidate now db
        ⟨d.projectSlug, d.slug, now - 2 * 86400, true, d.readOnly⟩ =
        !(db.any (fun c =>
          c.hasRepo && c.slug == d.slug && c.projectSlug == d.projectSlug))
    ∧ staleRepoCandidate now db
        ⟨d.projectSlug, d.slug, now - 3600, true, d.readOnly⟩ = false := by
  refine ⟨?_, ?_, ?_, ?_, ?_⟩
  · constructor
    · intro hcand
      unfold staleRepoCandidate at hcand
      by_cases hd : (!d.isDir) = true
      · rw [if_pos hd] at hcand
        exact absurd hcand (by simp)
      · rw [if_neg hd] at hcand
        by_cases hm : d.mtime > now - 86400
        · rw [if_pos hm] at hcand
          exact absurd hcand (by simp)
        · rw [if_neg hm] at hcand
          refine ⟨by simpa using hd, by omega, ?_⟩
          rintro ⟨c, hc, hr, hs, hp⟩
          have hany : db.any (fun c =>
              c.hasRepo && c.slug == d.slug &&
                c.projectSlug == d.projectSlug) = true :=
            List.any_eq_true.mpr ⟨c, hc, by simp [hr, hs, hp]⟩
          rw [hany] at hcand
          exact absurd hcand (by simp)
    · rintro ⟨hd, hm, hno⟩
      unfold staleRepoCandidate
      rw [if_neg (by simp [hd]), if_neg (by omega)]
      cases hany : db.any (fun c =>
          c.hasRepo && c.slug == d.slug && c.projectSlug == d.projectSlug)
      · rfl
      · obtain ⟨c, hc, hcc⟩ := List.any_eq_true.mp hany
        simp only [Bool.and_eq_true, beq_iff_eq] at hcc
        exact absurd ⟨c, hc, hcc.1.1, hcc.1.2, hcc.2⟩ hno
  · intro b
    unfold staleRepoCandidate
    rfl
  · unfold cleanup_stale_repos
    simp [List.mem_filter]
  · unfold staleRepoCandidate
    rw [if_neg (by simp),
      if_neg (by show ¬(now - 2 * 86400 > now - 86400); omega)]
  · unfold staleRepoCandidate
    rw [if_neg (by simp)]
    rw [if_pos (by show now - 3600 > now - 86400; omega)]

/-- C9 counterexample: the reason tag that `commit_pending` puts on the
enqueued commit task is the string `"commit_pending"`, not
`"periodic-commit"` as the claim states. -/
theorem commit_reason_tag :
    (commit_pending 10000 none none [sampleEligible]).map CommitTask.reason =
      ["commit_pending"]
    ∧ "commit_pending" ≠ "periodic-commit" := by decide

/-- One scan step yields nothing or the one task of its component. -/
theorem commitPendingStep_none_or (now : Int) (hours : Option Nat)
    (c : Component) :
    commitPendingStep now hours c = none ∨
    commitPendingStep now hours c =
      some ⟨c.pk, "commit_pending", none⟩ := by
  simp only [commitPendingStep]
  cases hours with
  | none =>
    cases c.lastChanged with
    | none => exact Or.inl rfl
    | some lc =>
      dsimp only
      by_cases hgt : lc > now - 3600 * (c.commit_pending_age : Int)
      · rw [if_pos hgt]
        exact Or.inl rfl
      · rw [if_neg hgt]
        by_cases hnc : (!c.needs_commit) = true
        · rw [if_pos hnc]
          exact Or.inl rfl
        · rw [if_neg hnc]
          exact Or.inr rfl
  | some h =>
    cases c.lastChanged with
    | none => exact Or.inl rfl
    | some lc =>
      dsimp only
      by_cases hgt : lc > now - 3600 * (h : Int)
      · rw [if_pos hgt]
        exact Or.inl rfl
      · rw [if_neg hgt]
        by_cases hnc : (!c.needs_commit) = true
        · rw [if_pos hnc]
          exact Or.inl rfl
        · rw [if_neg hnc]
          exact Or.inr rfl

/-- Shape of a generated commit task: it carries the pk of its component,
the reason string `"commit_pending"` and no author. -/
theorem commitPendingStep_some_shape (now : Int) (hours : Option Nat)
    (c : Component) (t : CommitTask)
    (h : commitPendingStep now hours c = some t) :
    t = ⟨c.pk, "commit_pending", none⟩ := by
  rcases commitPendingStep_none_or now hours c with h0 | h1
  · rw [h0] at h
    exact absurd h (by simp)
  · rw [h1] at h
    injection h with h2
    exact h2.symm

/-- With no component of pk `pk0` in the scan list, no generated task
carries `pk0`. -/
theorem commit_pending_countP_zero (now : Int) (hours : Option Nat)
    (pk0 : Nat) (l : List Component) (hno : ∀ c ∈ l, c.pk ≠ pk0) :
    (l.filterMap (commitPendingStep now hours)).countP
      (fun t => t.pk == pk0) = 0 := by
  rw [List.countP_eq_zero]
  intro t ht
  obtain ⟨c, hc, hstep⟩ := List.mem_filterMap.mp ht
  have := commitPendingStep_some_shape now hours c t hstep
  subst this
  simpa using hno c hc

/-- With pairwise distinct component pks in the scan list, at most one
generated task carries any given pk. -/
theorem commit_pending_countP_le_one (now : Int) (hours : Option Nat)
    (pk0 : Nat) (l : List Component)
    (hnodup : (l.map Component.pk).Nodup) :
    (l.filterMap (commitPendingStep now hours)).countP
      (fun t => t.pk == pk0) ≤ 1 := by
  induction l with
  | nil => simp
  | cons c tl ih =>
    rw [List.map_cons, List.nodup_cons] at hnodup
    rw [List.filterMap_cons]
    cases hstep : commitPendingStep now hours c with
    | none => exact ih hnodup.2
    | some t =>
      have hshape := commitPendingStep_some_shape now hours c t hstep
      subst hshape
      rw [List.countP_cons]
      by_cases hpk : c.pk = pk0
      · have hzero : (tl.filterMap (commitPendingStep now hours)).countP
            (fun t => t.pk == pk0) = 0 := by
          refine commit_pending_countP_zero now hours pk0 tl ?_
          intro c' hc' hceq
          apply hnodup.1
          rw [hpk, ← hceq]
          exact List.mem_map_of_mem Component.pk hc'
        simp [hzero, hpk]
      · have hle := ih hnodup.2
        simp only [CommitTask.pk]
        rw [if_neg (by simpa using hpk)]
        omega

/-- C9 (amended): in one `commit_pending` run over a table with pairwise
distinct component pks, every eligible scanned component gets exactly
one commit task enqueued — even when several caller-supplied candidate
translation ids map to it — the commit is enqueued (a task descriptor,
not an inline call), and the enqueued task carries the reason tag
`"commit_pending"`. -/
theorem commit_pending_exactly_one (now : Int) (hours : Option Nat)
    (pks : Option (List Nat)) (db : List Component) (c : Component)
    (hnodup : (db.map Component.pk).Nodup)
    (hmem : c ∈ commitPendingComponents db pks)
    (helig : ∃ t, commitPendingStep now hours c = some t) :
    (commit_pending now hours pks db).countP (fun t => t.pk == c.pk) = 1
    ∧ ∀ t ∈ commit_pending now hours pks db, t.reason = "commit_pending" := by
  have hsel_nodup : ((commitPendingComponents db pks).map Component.pk).Nodup := by
    unfold commitPendingComponents
    cases pks with
    | none => exact hnodup
    | some ps =>
      exact List.Nodup.sublist
        (List.Sublist.map Component.pk (List.filter_sublist db)) hnodup
  constructor
  · obtain ⟨t, ht⟩ := helig
    have hshape := commitPendingStep_some_shape now hours c t ht
    subst hshape
    have hmem2 : (⟨c.pk, "commit_pending", none⟩ : CommitTask) ∈
        commit_pending now hours pks db :=
      List.mem_filterMap.mpr ⟨c, hmem, ht⟩
    have hpos : 0 < (commit_pending now hours pks db).countP
        (fun t => t.pk == c.pk) :=
      List.countP_pos_iff.mpr ⟨_, hmem2, by simp⟩
    have hle : (commit_pending now hours pks db).countP
        (fun t => t.pk == c.pk) ≤ 1 :=
      commit_pending_countP_le_one now hours c.pk _ hsel_nodup
    omega
  · intro t ht
    obtain ⟨c', _, hstep⟩ := List.mem_filterMap.mp ht
    have := commitPendingStep_some_shape now hours c' t hstep
    subst this
    rfl

/-- Witness instantiating C9's amended theorem: scanning the sample
table with two candidate translation ids that both map to the sample
component yields exactly one task for it, tagged `"commit_pending"`. -/
theorem commit_pending_exactly_one_witness :
    (commit_pending 10000 none (some [5, 6]) [sampleEligible]).countP
      (fun t => t.pk == sampleEligible.pk) = 1 :=
  (commit_pending_exactly_one 10000 none (some [5, 6]) [sampleEligible]
    sampleEligible (by decide) (by decide)
    ⟨⟨1, "commit_pending", none⟩, by decide⟩).1

/-- C10: with `SUGGESTION_CLEANUP_DAYS` (resp. `COMMENT_CLEANUP_DAYS`)
unset or zero, one run of the aging cleanup deletes nothing; and any
record one run deletes has a timestamp strictly older than now minus the
configured number of days. -/
theorem aging_cleanup_safe (days : Option Nat) (now : Int)
    (sugs : List Suggestion) (cs : List Comment) :
    (days.getD 0 = 0 →
      cleanup_old_suggestions days now sugs = sugs
      ∧ cleanup_old_comments days now cs = cs)
    ∧ (∀ s ∈ sugs, s ∉ cleanup_old_suggestions days now sugs →
        ∃ d, days = some d ∧ d ≠ 0 ∧ s.timestamp < now - 86400 * (d : Int))
    ∧ (∀ c ∈ cs, c ∉ cleanup_old_comments days now cs →
        ∃ d, days = some d ∧ d ≠ 0 ∧ c.timestamp < now - 86400 * (d : Int)) := by
  refine ⟨?_, ?_, ?_⟩
  · intro hz
    cases days with
    | none => exact ⟨rfl, rfl⟩
    | some d =>
      simp only [Option.getD] at hz
      subst hz
      exact ⟨by simp [cleanup_old_suggestions], by simp [cleanup_old_comments]⟩
  · intro s hs hdel
    cases days with
    | none => exact absurd hs hdel
    | some d =>
      by_cases hd : d = 0
      · subst hd
        exact absurd hs (by simpa [cleanup_old_suggestions] using hdel)
      · refine ⟨d, rfl, hd, ?_⟩
        simp only [cleanup_old_suggestions, if_neg hd] at hdel
        by_contra hts
        exact hdel (List.mem_filter.mpr ⟨hs, by simp [hts]⟩)
  · intro c hc hdel
    cases days with
    | none => exact absurd hc hdel
    | some d =>
      by_cases hd : d = 0
      · subst hd
        exact absurd hc (by simpa [cleanup_old_comments] using hdel)
      · refine ⟨d, rfl, hd, ?_⟩
        simp only [cleanup_old_comments, if_neg hd] at hdel
        by_contra hts
        exact hdel (List.mem_filter.mpr ⟨hc, by simp [hts]⟩)

/-- Witness instantiating C10: with a 2-day horizon a suggestion from
timestamp 0 is deleted at `now = 200000`, and the theorem recovers that
it was strictly older than the cutoff; with the setting unset nothing is
deleted. -/
theorem aging_cleanup_safe_witness :
    (∃ d, (some 2 : Option Nat) = some d ∧ d ≠ 0 ∧
      (⟨1, 0⟩ : Suggestion).timestamp < 200000 - 86400 * (d : Int))
    ∧ cleanup_old_suggestions none 200000 [⟨1, 0⟩] = [⟨1, 0⟩] :=
  ⟨(aging_cleanup_safe (some 2) 200000 [⟨1, 0⟩] []).2.1 ⟨1, 0⟩ (by decide)
      (by decide),
   ((aging_cleanup_safe none 200000 [⟨1, 0⟩] []).1 (by decide)).1⟩

/-! ## Fulltext cleanup lemmas -/

theorem liveEntries_idem (u idx : List Nat) :
    liveEntries u (liveEntries u idx) = liveEntries u idx := by
  unfold liveEntries
  rw [List.filter_eq_self]
  intro a ha
  first
    | simpa using ha.2
    | simpa using (List.mem_filter.mp ha).2

theorem staleEntries_liveEntries (u idx : List Nat) :
    staleEntries u (liveEntries u idx) = [] := by
  unfold staleEntries liveEntries
  rw [List.filter_eq_nil_iff]
  intro a ha
  simp only [List.mem_filter] at ha
  have hmem : a ∈ u := by simpa using ha.2
  simp [hmem]

theorem option_map_live_idem (u : List Nat) (o : Option (List Nat)) :
    (o.map (liveEntries u)).map (liveEntries u) = o.map (liveEntries u) := by
  cases o <;> simp [liveEntries_idem]

theorem lookup_cons_kv (k : String) (b : List Nat)
    (es : List (String × List Nat)) (a : String) :
    ((k, b) :: es).lookup a = if a = k then some b else es.lookup a := by
  by_cases h : a = k
  · simp [List.lookup, h]
  · have hb : (a == k) = false := beq_eq_false_iff_ne.mpr h
    simp [List.lookup, hb, h]

theorem setTarget_cons (k : String) (w : List Nat)
    (tl : List (String × List Nat)) (l : String) (v : List Nat) :
    setTarget ((k, w) :: tl) l v =
      (if k = l then (k, v) else (k, w)) :: setTarget tl l v := by
  by_cases h : k = l <;> simp [setTarget, h]

theorem lookup_setTarget (ts : List (String × List Nat)) (l : String)
    (v : List Nat) (l' : String) :
    (setTarget ts l v).lookup l' =
      if l' = l then (ts.lookup l).map (fun _ => v) else ts.lookup l' := by
  induction ts with
  | nil => by_cases h : l' = l <;> simp [setTarget, h]
  | cons p tl ih =>
    obtain ⟨k, w⟩ := p
    rw [setTarget_cons]
    by_cases hkl : k = l
    · subst hkl
      by_cases hl' : l' = k <;>
        simp [lookup_cons_kv, hl', ih]
    · rw [if_neg hkl]
      by_cases hl'k : l' = k <;> by_cases hl'l : l' = l <;>
        simp_all [lookup_cons_kv, ih]

theorem cleanupPartitionStep_fields (st : FulltextState) (n : Nat)
    (a : Option String) :
    (cleanupPartitionStep (st, n) a).1.units = st.units
    ∧ (cleanupPartitionStep (st, n) a).1.langs = st.langs
    ∧ (cleanupPartitionStep (st, n) a).2 = n + staleCountOf st a := by
  cases a with
  | none =>
    rcases hsrc : st.source with _ | idx <;>
      simp [cleanupPartitionStep, staleCountOf, partitionOf, hsrc]
  | some l =>
    rcases hl : st.targets.lookup l with _ | idx <;>
      simp [cleanupPartitionStep, staleCountOf, partitionOf, hl]

theorem cleanupPartitionStep_source (st : FulltextState) (n : Nat) :
    (cleanupPartitionStep (st, n) none).1.source =
      st.source.map (liveEntries st.units)
    ∧ ∀ l, (cleanupPartitionStep (st, n) (some l)).1.source = st.source := by
  constructor
  · rcases hsrc : st.source with _ | idx <;>
      simp [cleanupPartitionStep, hsrc]
  · intro l
    rcases hl : st.targets.lookup l with _ | idx <;>
      simp [cleanupPartitionStep, hl]

theorem cleanupPartitionStep_targets (st : FulltextState) (n : Nat) :
    (cleanupPartitionStep (st, n) none).1.targets = st.targets
    ∧ ∀ l l', (cleanupPartitionStep (st, n) (some l)).1.targets.lookup l' =
        (if l' = l then (st.targets.lookup l').map (liveEntries st.units)
         else st.targets.lookup l') := by
  constructor
  · rcases hsrc : st.source with _ | idx <;>
      simp [cleanupPartitionStep, hsrc]
  · intro l l'
    rcases hl : st.targets.lookup l with _ | idx
    · simp only [cleanupPartitionStep, hl]
      by_cases he : l' = l
      · subst he
        simp [hl]
      · simp [he]
    · simp only [cleanupPartitionStep, hl]
      rw [lookup_setTarget]
      by_cases he : l' = l
      · subst he
        simp [hl]
      · simp [he]

theorem cleanup_fold_spec (ls : List (Option String)) (st : FulltextState)
    (n : Nat) :
    (ls.foldl cleanupPartitionStep (st, n)).1.units = st.units
    ∧ (ls.foldl cleanupPartitionStep (st, n)).1.langs = st.langs
    ∧ (ls.foldl cleanupPartitionStep (st, n)).1.source =
        (if none ∈ ls then st.source.map (liveEntries st.units) else st.source)
    ∧ (∀ l', (ls.foldl cleanupPartitionStep (st, n)).1.targets.lookup l' =
        (if some l' ∈ ls
         then (st.targets.lookup l').map (liveEntries st.units)
         else st.targets.lookup l'))
    ∧ (ls.Nodup →
        (ls.foldl cleanupPartitionStep (st, n)).2 =
          n + (ls.map (staleCountOf st)).sum) := by
  induction ls generalizing st n with
  | nil => simp
  | cons a tl ih =>
    simp only [List.foldl_cons]
    rcases hstep : cleanupPartitionStep (st, n) a with ⟨st1, n1⟩
    have h1 : st1 = (cleanupPartitionStep (st, n) a).1 := by rw [hstep]
    have h2 : n1 = (cleanupPartitionStep (st, n) a).2 := by rw [hstep]
    obtain ⟨hu, hg, hsrc, htgt, hcnt⟩ := ih st1 n1
    have hfields := cleanupPartitionStep_fields st n a
    have hu1 : st1.units = st.units := by rw [h1]; exact hfields.1
    have hg1 : st1.langs = st.langs := by rw [h1]; exact hfields.2.1
    have hn1 : n1 = n + staleCountOf st a := by rw [h2]; exact hfields.2.2
    refine ⟨?_, ?_, ?_, ?_, ?_⟩
    · rw [hu, hu1]
    · rw [hg, hg1]
    · rw [hsrc, hu1]
      cases a with
      | none =>
        have hs1 : st1.source = st.source.map (liveEntries st.units) := by
          rw [h1]; exact (cleanupPartitionStep_source st n).1
        rw [hs1, if_pos (List.mem_cons_self _ _)]
        by_cases hmem : (none : Option String) ∈ tl
        · rw [if_pos hmem]
          exact option_map_live_idem st.units st.source
        · rw [if_neg hmem]
      | some m =>
        have hs1 : st1.source = st.source := by
          rw [h1]; exact (cleanupPartitionStep_source st n).2 m
        rw [hs1]
        exact if_congr (by simp) rfl rfl
    · intro l'
      rw [htgt l', hu1]
      cases a with
      | none =>
        have ht1 : st1.targets = st.targets := by
          rw [h1]; exact (cleanupPartitionStep_targets st n).1
        rw [ht1]
        exact if_congr (by simp) rfl rfl
      | some m =>
        have ht1 : st1.targets.lookup l' =
            (if l' = m
             then (st.targets.lookup l').map (liveEntries st.units)
             else st.targets.lookup l') := by
          rw [h1]; exact (cleanupPartitionStep_targets st n).2 m l'
        rw [ht1]
        by_cases hlm : l' = m
        · subst hlm
          rw [if_pos rfl, option_map_live_idem, ite_self,
            if_pos (List.mem_cons_self _ _)]
        · rw [if_neg hlm]
          exact if_congr (by simp [hlm]) rfl rfl
    · intro hnd
      rw [List.nodup_cons] at hnd
      rw [hcnt hnd.2, hn1, List.map_cons, List.sum_cons]
      have hmapeq : tl.map (staleCountOf st1) = tl.map (staleCountOf st) := by
        apply List.map_congr_left
        intro b hb
        have hba : b ≠ a := fun he => hnd.1 (he ▸ hb)
        unfold staleCountOf
        rw [hu1]
        have hpart : partitionOf st1 b = partitionOf st b := by
          cases b with
          | none =>
            cases a with
            | none => exact absurd rfl hba
            | some m =>
              show st1.source = st.source
              rw [h1]
              exact (cleanupPartitionStep_source st n).2 m
          | some x =>
            cases a with
            | none =>
              show st1.targets.lookup x = st.targets.lookup x
              rw [h1, (cleanupPartitionStep_targets st n).1]
            | some m =>
              have hxm : x ≠ m := fun he => hba (by rw [he])
              show st1.targets.lookup x = st.targets.lookup x
              rw [h1, (cleanupPartitionStep_targets st n).2 m x, if_neg hxm]
        rw [hpart]
      rw [hmapeq]
      omega

/-- C7: one `cleanup_fulltext` run leaves the unit store and the language
table untouched, keeps in every partition it scans (the source one and
one per listed language) exactly the entries whose unit still exists,
skips unbuilt partitions (which stay unbuilt) and unlisted partitions,
deletes in total exactly the number of stale entries those partitions
held, and a second run on the result deletes zero entries. -/
theorem cleanup_fulltext_spec (s : FulltextState) (hnd : s.langs.Nodup) :
    (cleanup_fulltext s).1.units = s.units
    ∧ (cleanup_fulltext s).1.langs = s.langs
    ∧ (cleanup_fulltext s).1.source = s.source.map (liveEntries s.units)
    ∧ (∀ l ∈ s.langs, (cleanup_fulltext s).1.targets.lookup l =
        (s.targets.lookup l).map (liveEntries s.units))
    ∧ (∀ l, l ∉ s.langs → (cleanup_fulltext s).1.targets.lookup l =
        s.targets.lookup l)
    ∧ (cleanup_fulltext s).2 =
        staleCountOf s none +
          (s.langs.map (fun l => staleCountOf s (some l))).sum
    ∧ (cleanup_fulltext (cleanup_fulltext s).1).2 = 0 := by
  have hmem_none : (none : Option String) ∈ s.langs.map some ++ [none] := by
    simp
  have hmem_some : ∀ l : String,
      (some l ∈ s.langs.map some ++ [none]) ↔ l ∈ s.langs := by
    intro l
    simp
  have hnodup : (s.langs.map some ++ [none]).Nodup := by
    refine List.Nodup.append (hnd.map (fun _ _ => by simp)) (by simp) ?_
    intro x hx hx2
    simp only [List.mem_singleton] at hx2
    subst hx2
    obtain ⟨y, _, hy⟩ := List.mem_map.mp hx
    exact Option.noConfusion hy
  obtain ⟨hu, hg, hsrc, htgt, hcnt⟩ :=
    cleanup_fold_spec (s.langs.map some ++ [none]) s 0
  have hu' : (cleanup_fulltext s).1.units = s.units := hu
  have hg' : (cleanup_fulltext s).1.langs = s.langs := hg
  have hsrc' : (cleanup_fulltext s).1.source =
      s.source.map (liveEntries s.units) := by
    rw [cleanup_fulltext, hsrc, if_pos hmem_none]
  have htgt_in : ∀ l ∈ s.langs, (cleanup_fulltext s).1.targets.lookup l =
      (s.targets.lookup l).map (liveEntries s.units) := by
    intro l hl
    rw [cleanup_fulltext, htgt l, if_pos ((hmem_some l).mpr hl)]
  have htgt_out : ∀ l, l ∉ s.langs →
      (cleanup_fulltext s).1.targets.lookup l = s.targets.lookup l := by
    intro l hl
    rw [cleanup_fulltext, htgt l,
      if_neg (fun hin => hl ((hmem_some l).mp hin))]
  have hcount : (cleanup_fulltext s).2 =
      staleCountOf s none +
        (s.langs.map (fun l => staleCountOf s (some l))).sum := by
    rw [cleanup_fulltext, hcnt hnodup, List.map_append, List.sum_append,
      List.map_map]
    simp only [Function.comp_def, List.map_cons, List.map_nil,
      List.sum_cons, List.sum_nil]
    omega
  refine ⟨hu', hg', hsrc', htgt_in, htgt_out, hcount, ?_⟩
  set s' := (cleanup_fulltext s).1 with hs'
  have hnd' : s'.langs.Nodup := by rw [hg']; exact hnd
  have hmem_none' : (none : Option String) ∈ s'.langs.map some ++ [none] := by
    simp
  have hnodup' : (s'.langs.map some ++ [none]).Nodup := by
    rw [hg']
    exact hnodup
  obtain ⟨_, _, _, _, hcnt2⟩ :=
    cleanup_fold_spec (s'.langs.map some ++ [none]) s' 0
  rw [cleanup_fulltext, hcnt2 hnodup']
  have hzero : ∀ a ∈ s'.langs.map some ++ [none], staleCountOf s' a = 0 := by
    intro a ha
    rcases List.mem_append.mp ha with hin | hin
    · obtain ⟨l, hl, rfl⟩ := List.mem_map.mp hin
      rw [hg'] at hl
      unfold staleCountOf
      have : partitionOf s' (some l) =
          (s.targets.lookup l).map (liveEntries s.units) := htgt_in l hl
      rw [this, hu']
      cases hlk : s.targets.lookup l with
      | none => simp
      | some idx => simp [staleEntries_liveEntries]
    · simp only [List.mem_singleton] at hin
      subst hin
      unfold staleCountOf
      have : partitionOf s' none = s.source.map (liveEntries s.units) := hsrc'
      rw [this, hu']
      cases hsk : s.source with
      | none => simp
      | some idx => simp [staleEntries_liveEntries]
  have hsum : (List.map (staleCountOf s')
      (List.map some s'.langs ++ [none])).sum = 0 := by
    apply List.sum_eq_zero
    intro x hx
    obtain ⟨a, ha, rfl⟩ := List.mem_map.mp hx
    exact hzero a ha
  omega

/-- Witness instantiating C7 on the sample index state: the second
cleanup run deletes zero entries. -/
theorem cleanup_fulltext_spec_witness :
    (cleanup_fulltext (cleanup_fulltext sampleIndex).1).2 = 0 :=
  (cleanup_fulltext_spec sampleIndex (by decide)).2.2.2.2.2.2

end Weblate
